import Mathlib

/-!
Verification of the InsightFlow browser-extension client and its companion
document-processing backend, against the natural-language specification.

The client code is embedded from the TypeScript sources (`apiService`
alias `src/unnamed/part_006`, the immersive-reading Vue component
`src/unnamed/part_008`, and `stringUtils.ts`).  The backend routes are not
part of the repository snapshot (only `openapi.json` declares them), so the
backend data model and endpoints are modelled from the specification, as
marked in their doc comments.
-/

namespace InsightFlow

/-! ## Client status polling (`pollFileStatus`, part_006 lines 387-452)

One HTTP poll tick either fails at the HTTP level (`!statusResponse.ok`),
throws (network error / 5s timeout), or yields a JSON body whose `status`
field is an arbitrary string. -/

/-- One poll response as observed by `pollFileStatus`. -/
inductive PollResp where
  | httpError : PollResp
  | ok (status : String) : PollResp
  | netError : PollResp
deriving DecidableEq

/-- Terminal outcome of a polling run. -/
inductive PollOutcome where
  | completed : PollOutcome
  | failed : PollOutcome
deriving DecidableEq

/-- State of the polling interval: still scheduled with an attempt counter,
or cleared with an outcome (`clearInterval` was called). -/
inductive PollState where
  | polling (attempts : Nat) : PollState
  | stopped (outcome : PollOutcome) : PollState
deriving DecidableEq

/-- `const maxAttempts = 60` in `pollFileStatus`. -/
def maxAttempts : Nat := 60

/-- One tick of the `setInterval` callback in `pollFileStatus`: `attempts++`,
then the `!statusResponse.ok` branch, the `switch` on `statusResult.status`
(`Completed`, `Failed`, `Processing`/`Pending`, `default`), or the `catch`
branch.  JS `attempts >= maxAttempts` is `maxAttempts ≤ attempts`. -/
def pollStep (attempts : Nat) (r : PollResp) : PollState :=
  let attempts := attempts + 1
  match r with
  | .httpError =>
      if maxAttempts ≤ attempts then .stopped .failed else .polling attempts
  | .netError =>
      if maxAttempts ≤ attempts then .stopped .failed else .polling attempts
  | .ok s =>
      if s = "Completed" then .stopped .completed
      else if s = "Failed" then .stopped .failed
      else if s = "Processing" ∨ s = "Pending" then
        if maxAttempts ≤ attempts then .stopped .failed else .polling attempts
      else
        -- `default:` branch of the switch: unknown status keeps polling
        .polling attempts

/-- Run the polling loop over a stream of responses: `pollRun resp n` is the
interval's state after the first `n` ticks, starting from `attempts = 0`.
A cleared interval stays cleared. -/
def pollRun (resp : Nat → PollResp) : Nat → PollState
  | 0 => .polling 0
  | n + 1 =>
      match pollRun resp n with
      | .stopped o => .stopped o
      | .polling a => pollStep a (resp n)

/-- Whether the interval has been cleared. -/
def PollState.isStopped : PollState → Bool
  | .polling _ => false
  | .stopped _ => true

/-- A response the `switch` statement recognises: an HTTP error, a thrown
fetch, or one of the four documented status strings. -/
def PollResp.isKnown : PollResp → Bool
  | .httpError => true
  | .netError => true
  | .ok s => s = "Completed" || s = "Failed" || s = "Processing" || s = "Pending"

theorem pollStep_polling_eq (a : Nat) (r : PollResp) (b : Nat)
    (h : pollStep a r = .polling b) : b = a + 1 := by
  cases r <;> simp only [pollStep] at h <;>
    (repeat' split at h) <;> simp_all

theorem pollRun_succ (resp : Nat → PollResp) (n : Nat) :
    pollRun resp (n + 1) =
      match pollRun resp n with
      | .stopped o => .stopped o
      | .polling a => pollStep a (resp n) := rfl

theorem pollRun_stopped_succ (resp : Nat → PollResp) (n : Nat)
    (o : PollOutcome) (h : pollRun resp n = .stopped o) :
    pollRun resp (n + 1) = .stopped o := by
  rw [pollRun_succ, h]

/-- While the interval is still scheduled, the attempt counter equals the
number of ticks executed so far. -/
theorem pollRun_polling_attempts (resp : Nat → PollResp) :
    ∀ n, (pollRun resp n).isStopped = true ∨ pollRun resp n = .polling n := by
  intro n
  induction n with
  | zero => exact Or.inr rfl
  | succ n ih =>
      rcases ih with h | h
      · left
        cases hn : pollRun resp n with
        | polling a => rw [hn] at h; simp [PollState.isStopped] at h
        | stopped o => simp [pollRun_stopped_succ resp n o hn, PollState.isStopped]
      · have hstep : pollRun resp (n + 1) = pollStep n (resp n) := by
          rw [pollRun_succ, h]
        cases hs : pollStep n (resp n) with
        | polling b =>
            right
            rw [hstep, hs, pollStep_polling_eq n (resp n) b hs]
        | stopped o => left; rw [hstep, hs]; rfl

theorem pollStep_known_stopped (a : Nat) (r : PollResp)
    (ha : maxAttempts ≤ a + 1) (hr : r.isKnown = true) :
    (pollStep a r).isStopped = true := by
  cases r with
  | httpError => simp [pollStep, ha, PollState.isStopped]
  | netError => simp [pollStep, ha, PollState.isStopped]
  | ok s =>
      simp only [PollResp.isKnown, Bool.or_eq_true, decide_eq_true_eq] at hr
      rcases hr with ((h | h) | h) | h <;> subst h <;>
        simp [pollStep, ha, PollState.isStopped]

/-- C1 (as stated) is refuted by a server that keeps answering HTTP 200 with
a status string outside the four documented values: the `default:` branch of
the `switch` keeps polling without ever consulting `maxAttempts`, so after 60
attempts — and after 120 — the interval is still scheduled. -/
theorem pollFileStatus_unknown_status_counterexample :
    (pollRun (fun _ => PollResp.ok "InQueue") 60).isStopped = false ∧
    (pollRun (fun _ => PollResp.ok "InQueue") 120).isStopped = false := by
  constructor <;> decide

/-- C1 (amended): `pollFileStatus` clears its interval as soon as a tick
observes a terminal status (`Completed` or `Failed`); and provided every
response is one the `switch` recognises (an HTTP error, a thrown fetch, or
one of the four documented statuses `Pending`, `Processing`, `Completed`,
`Failed`), the interval is cleared after at most `maxAttempts = 60` ticks.
For statuses outside the enum the `default:` branch polls forever. -/
theorem pollFileStatus_bounded (resp : Nat → PollResp) :
    ((∀ i, (resp i).isKnown = true) →
      (pollRun resp maxAttempts).isStopped = true) ∧
    (∀ n a, pollRun resp n = .polling a → resp n = .ok "Completed" →
      pollRun resp (n + 1) = .stopped .completed) ∧
    (∀ n a, pollRun resp n = .polling a → resp n = .ok "Failed" →
      pollRun resp (n + 1) = .stopped .failed) := by
  refine ⟨fun hknown => ?_, fun n a h hc => ?_, fun n a h hc => ?_⟩
  · rcases pollRun_polling_attempts resp maxAttempts with h | h
    · exact h
    · have h59 : pollRun resp maxAttempts = pollStep 59 (resp 59) := by
        rcases pollRun_polling_attempts resp 59 with h' | h'
        · cases hn : pollRun resp 59 with
          | polling a => rw [hn] at h'; simp [PollState.isStopped] at h'
          | stopped o =>
              have := pollRun_stopped_succ resp 59 o hn
              rw [show maxAttempts = 59 + 1 from rfl, this] at h
              cases h
        · show pollRun resp (59 + 1) = _
          rw [pollRun_succ, h']
      rw [h59]
      exact pollStep_known_stopped 59 (resp 59) (by simp [maxAttempts]) (hknown 59)
  · have : pollRun resp (n + 1) = pollStep a (resp n) := by rw [pollRun_succ, h]
    rw [this, hc]
    rfl
  · have : pollRun resp (n + 1) = pollStep a (resp n) := by rw [pollRun_succ, h]
    rw [this, hc]
    rfl

/-- A concrete run for C1: a server answering `Completed` from the first
tick stops the poller immediately, and a fully well-behaved response stream
is stopped by tick 60. -/
theorem pollFileStatus_bounded_witness :
    pollRun (fun _ => PollResp.ok "Completed") 1
        = PollState.stopped PollOutcome.completed ∧
    (pollRun (fun _ => PollResp.ok "Processing") maxAttempts).isStopped
        = true :=
  ⟨(pollFileStatus_bounded (fun _ => PollResp.ok "Completed")).2.1 0 0 rfl rfl,
   (pollFileStatus_bounded (fun _ => PollResp.ok "Processing")).1 fun _ => rfl⟩

/-! ## Immersive-reading component state (part_008)

The Vue component's refs and interval handles, as one record.  A live
`setInterval` handle is `some id`; `clearInterval` followed by the `null`
assignment is modelled by setting the field to `none`. -/

/-- An entry of `answersCache` (part_008 lines 286-290). -/
structure CacheEntry where
  answer : String
  reasoning_content : Option String
  timestamp : Nat
deriving DecidableEq

/-- `QuestionItem` from `questionTypes.ts`. -/
structure QuestionItem where
  question : String
  label : String
  chunk_id : Int
  question_id : Int
deriving DecidableEq

/-- `QuestionResponse` from `questionTypes.ts`. -/
structure QuestionResponse where
  file_id : String
  questions : List QuestionItem
deriving DecidableEq

/-- The reactive state of the `MainPage` component (part_008). -/
structure MainPageState where
  showSkeleton : Bool
  showProgress : Bool
  progress : Nat
  questions : List QuestionItem
  error : Option String
  progressInterval : Option Nat
  isExpanded : List Bool
  displayedAnswers : List String
  typingCursors : List Bool
  pollIntervalId : Option Nat
  answersCache : List (String × CacheEntry)
  displayedAnswer : String
  typingCursor : Bool
deriving DecidableEq

/-- `handleExit` (part_008 lines 258-282): clears the question list, stops
the progress animation and the `pollFileStatus` interval, empties
`displayedAnswer`, and resets the skeleton/progress/error UI flags. -/
def handleExit (s : MainPageState) : MainPageState :=
  { s with
    questions := []
    progressInterval := none
    pollIntervalId := none
    displayedAnswer := ""
    showSkeleton := false
    showProgress := false
    progress := 0
    error := none }

/-- C10: `handleExit` resets only the UI state — it clears the question
list, stops the progress and poll timers, clears `displayedAnswer` and the
error flag — while leaving `answersCache` (and the per-question display
state) unchanged, so every previously cached answer survives exiting
immersive mode. -/
theorem handleExit_frame (s : MainPageState) :
    (handleExit s).answersCache = s.answersCache ∧
    (handleExit s).questions = [] ∧
    (handleExit s).progressInterval = none ∧
    (handleExit s).pollIntervalId = none ∧
    (handleExit s).displayedAnswer = "" ∧
    (handleExit s).error = none ∧
    (handleExit s).showSkeleton = false ∧
    (handleExit s).showProgress = false ∧
    (handleExit s).progress = 0 ∧
    (handleExit s).isExpanded = s.isExpanded ∧
    (handleExit s).displayedAnswers = s.displayedAnswers ∧
    (handleExit s).typingCursors = s.typingCursors ∧
    (handleExit s).typingCursor = s.typingCursor :=
  ⟨rfl, rfl, rfl, rfl, rfl, rfl, rfl, rfl, rfl, rfl, rfl, rfl, rfl⟩

/-! ## Backend data model and HTTP endpoints

The backend implementation (FastAPI routes, chunker, status store) is not in
the repository snapshot — only `openapi.json` declares the routes.  The
definitions below are therefore modelled from the specification, as each doc
comment states. -/

/-- Modelled from the spec: the Processing Status enum of §3, "one of
`{Pending, Processing, Completed, Failed}`". -/
inductive Status where
  | pending : Status
  | processing : Status
  | completed : Status
  | failed : Status
deriving DecidableEq

/-- Wire form of a status value, as surfaced in `{file_id, status}`. -/
def Status.toWire : Status → String
  | .pending => "Pending"
  | .processing => "Processing"
  | .completed => "Completed"
  | .failed => "Failed"

/-- Body of a successful `GET /file_status/{file_id}` reply. -/
structure StatusReply where
  file_id : String
  status : String
deriving DecidableEq

/-- An HTTP error reply, carrying its status code (404, 400, ...). -/
structure HttpError where
  code : Nat
deriving DecidableEq

/-- Modelled from the spec: the Status Store adapter of §4.4
(`get(file_id) -> status | NotFound`) behind `GET /file_status/{file_id}`
(§6): an unknown id yields a 404-equivalent not-found reply, a known id
yields `{file_id, status}`.  The backend route itself is absent from the
snapshot; `openapi.json` declares "404 if no status is found". -/
def fileStatusEndpoint (store : String → Option Status) (fid : String) :
    Except HttpError StatusReply :=
  match store fid with
  | none => .error ⟨404⟩
  | some s => .ok ⟨fid, s.toWire⟩

/-- C3: polling a never-uploaded `file_id` returns a 404-equivalent
not-found reply, which is distinct from every success reply — in particular
the client is never told the file is `Pending`. -/
theorem file_status_not_found_distinct (store : String → Option Status)
    (fid : String) (h : store fid = none) :
    fileStatusEndpoint store fid = .error ⟨404⟩ ∧
    ∀ r : StatusReply, fileStatusEndpoint store fid ≠ .ok r := by
  refine ⟨?_, ?_⟩ <;> simp [fileStatusEndpoint, h]

/-- A concrete run for C3: the empty status store 404s a fresh id and in
particular does not answer `Pending`. -/
theorem file_status_not_found_distinct_witness :
    fileStatusEndpoint (fun _ => none) "never-uploaded" = .error ⟨404⟩ ∧
    fileStatusEndpoint (fun _ => none) "never-uploaded"
      ≠ .ok ⟨"never-uploaded", "Pending"⟩ :=
  ⟨(file_status_not_found_distinct (fun _ => none) "never-uploaded" rfl).1,
   (file_status_not_found_distinct (fun _ => none) "never-uploaded" rfl).2 _⟩

/-- C7: every status string surfaced by a successful
`GET /file_status/{file_id}` is one of exactly the four enum values. -/
theorem file_status_enum (store : String → Option Status) (fid : String)
    (r : StatusReply) (h : fileStatusEndpoint store fid = .ok r) :
    r.status = "Pending" ∨ r.status = "Processing" ∨
    r.status = "Completed" ∨ r.status = "Failed" := by
  unfold fileStatusEndpoint at h
  cases hs : store fid with
  | none => rw [hs] at h; cases h
  | some s =>
      rw [hs] at h
      cases h
      cases s <;> simp [Status.toWire]

/-- A concrete run for C7: a store holding `Processing` surfaces exactly
that documented string. -/
theorem file_status_enum_witness :
    (StatusReply.mk "f1" "Processing").status = "Pending" ∨
    (StatusReply.mk "f1" "Processing").status = "Processing" ∨
    (StatusReply.mk "f1" "Processing").status = "Completed" ∨
    (StatusReply.mk "f1" "Processing").status = "Failed" :=
  file_status_enum (fun _ => some .processing) "f1" ⟨"f1", "Processing"⟩ rfl

/-- A persisted chunk row (spec §3 and §6: chunks table with
`(file_id, chunk_index)` and an opaque `chunk_id` referenced by
questions). -/
structure ChunkRow where
  chunk_id : Int
  file_id : String
  chunk_index : Nat
  text : String
deriving DecidableEq

/-- A persisted question row (spec §3: question text, a short label, a
reference back to `chunk_id`). -/
structure QuestionRow where
  question_id : Int
  question : String
  label : String
  chunk_id : Int
deriving DecidableEq

/-- Modelled from the spec: the durable stores visible to the questions
endpoint — the Status Store plus the chunks and questions tables (§3, §6). -/
structure BackendDb where
  statusStore : String → Option Status
  chunks : List ChunkRow
  questionRows : List QuestionRow

/-- Modelled from the spec: `GET /questions/{file_id}` (§6): "checks if file
processing is completed via Redis status" and errors with a 400-equivalent
when it is not (`openapi.json`: "400 if file processing is not completed"),
404s when no chunks exist for the file, and otherwise returns the persisted
questions of the file's chunks as `{question_id, question, label,
chunk_id}` items. -/
def questionsEndpoint (db : BackendDb) (fid : String) :
    Except HttpError QuestionResponse :=
  if db.statusStore fid = some .completed then
    let cs := db.chunks.filter (fun c => c.file_id = fid)
    if cs = [] then .error ⟨404⟩
    else
      .ok ⟨fid,
        (cs.flatMap fun c =>
            db.questionRows.filter (fun q => q.chunk_id = c.chunk_id)).map
          fun q => ⟨q.question, q.label, q.chunk_id, q.question_id⟩⟩
  else .error ⟨400⟩

/-- C4: `GET /questions/{file_id}` returns persisted questions only when the
file's status is `Completed`; for every file whose status is not `Completed`
the call returns a 400-equivalent error, never a partial or empty question
list. -/
theorem questions_requires_completed (db : BackendDb) (fid : String) :
    (db.statusStore fid ≠ some .completed →
      questionsEndpoint db fid = .error ⟨400⟩) ∧
    (∀ r, questionsEndpoint db fid = .ok r →
      db.statusStore fid = some .completed) := by
  constructor
  · intro h
    simp [questionsEndpoint, h]
  · intro r h
    unfold questionsEndpoint at h
    by_cases hc : db.statusStore fid = some .completed
    · exact hc
    · simp [hc] at h

/-- A concrete run for C4: with an empty status store the questions call is
rejected with a 400-equivalent error. -/
theorem questions_requires_completed_witness :
    questionsEndpoint ⟨fun _ => none, [], []⟩ "f1" = .error ⟨400⟩ :=
  (questions_requires_completed ⟨fun _ => none, [], []⟩ "f1").1 (by decide)

/-- A JSON scalar of the questions payload. -/
inductive JsonVal where
  | str (s : String) : JsonVal
  | num (n : Int) : JsonVal
deriving DecidableEq

/-- Wire form of one item of the `questions` array (`questionTypes.ts` and
spec §6: `{question_id, question, label, chunk_id}`). -/
def QuestionItem.toWire (q : QuestionItem) : List (String × JsonVal) :=
  [("question_id", .num q.question_id),
   ("question", .str q.question),
   ("label", .str q.label),
   ("chunk_id", .num q.chunk_id)]

/-- C6: every item in the `questions` array returned by a successful
`GET /questions/{file_id}` carries all four fields `question_id`,
`question`, `label` and `chunk_id`. -/
theorem questions_items_have_four_fields (db : BackendDb) (fid : String)
    (r : QuestionResponse) (_hok : questionsEndpoint db fid = Except.ok r) :
    ∀ item ∈ r.questions,
      "question_id" ∈ item.toWire.map Prod.fst ∧
      "question" ∈ item.toWire.map Prod.fst ∧
      "label" ∈ item.toWire.map Prod.fst ∧
      "chunk_id" ∈ item.toWire.map Prod.fst := by
  intro item _
  refine ⟨?_, ?_, ?_, ?_⟩ <;> simp [QuestionItem.toWire]

/-- A concrete run for C6: a completed one-chunk, one-question file yields
an item carrying all four fields. -/
theorem questions_items_have_four_fields_witness :
    "question_id" ∈ (QuestionItem.mk "why?" "factual" 1 7).toWire.map Prod.fst ∧
    "question" ∈ (QuestionItem.mk "why?" "factual" 1 7).toWire.map Prod.fst ∧
    "label" ∈ (QuestionItem.mk "why?" "factual" 1 7).toWire.map Prod.fst ∧
    "chunk_id" ∈ (QuestionItem.mk "why?" "factual" 1 7).toWire.map Prod.fst :=
  questions_items_have_four_fields
    ⟨fun _ => some .completed, [⟨1, "f1", 0, "sec"⟩], [⟨7, "why?", "factual", 1⟩]⟩
    "f1" ⟨"f1", [⟨"why?", "factual", 1, 7⟩]⟩ rfl ⟨"why?", "factual", 1, 7⟩
    (by simp)

/-- Modelled from the spec: a document-metadata row of the Metadata Store
(§4.5), keyed by `(user_id, content_hash)` for duplicate detection.  The
content hash is modelled as the content itself (an injective placeholder
for the hash function). -/
structure DocMeta where
  user_id : String
  content_hash : String
  file_id : String
deriving DecidableEq

/-- Duplicate lookup by `(user_id, content_hash)` (§4.5). -/
def findDup (docs : List DocMeta) (u h : String) : Option DocMeta :=
  docs.find? fun d => d.user_id = u && d.content_hash = h

/-- Reply of `POST /upload/{user_id}` as far as dedup is concerned
(`file_id` and the status indicator string of `uploadResult.ts` /
spec §4.5). -/
structure UploadReply where
  file_id : String
  status : String
deriving DecidableEq

/-- Modelled from the spec: `POST /upload/{user_id}` (§4.5, §7): on a
duplicate `(user_id, content_hash)` it short-circuits, returning the
existing `file_id` with the `File Already exists` indicator and leaving the
store unchanged; otherwise it records a new document under a fresh
`file_id`.  Returns the reply and the metadata store after the call. -/
def uploadEndpoint (docs : List DocMeta) (freshId : String)
    (u content : String) : UploadReply × List DocMeta :=
  match findDup docs u content with
  | some d => (⟨d.file_id, "File Already exists"⟩, docs)
  | none => (⟨freshId, "Upload Completed"⟩, ⟨u, content, freshId⟩ :: docs)

/-- C5: duplicate upload is idempotent — uploading identical content twice
for the same `user_id` makes the second `POST /upload/{user_id}` return the
first call's `file_id` together with the `File Already exists` indicator,
and it creates no second document (the metadata store is unchanged, so no
reprocessing is triggered). -/
theorem upload_duplicate_idempotent (docs : List DocMeta)
    (fid1 fid2 u content : String) :
    (uploadEndpoint (uploadEndpoint docs fid1 u content).2 fid2 u content).1.file_id
      = (uploadEndpoint docs fid1 u content).1.file_id ∧
    (uploadEndpoint (uploadEndpoint docs fid1 u content).2 fid2 u content).1.status
      = "File Already exists" ∧
    (uploadEndpoint (uploadEndpoint docs fid1 u content).2 fid2 u content).2
      = (uploadEndpoint docs fid1 u content).2 := by
  cases hfind : findDup docs u content with
  | some d => simp [uploadEndpoint, hfind]
  | none =>
      have hsecond :
          findDup (⟨u, content, fid1⟩ :: docs) u content
            = some ⟨u, content, fid1⟩ := by
        simp [findDup]
      simp [uploadEndpoint, hfind, hsecond]

/-! ## `uploadMarkdownContent` (part_006 lines 464-574)

The whole upload → generate → poll → fetch workflow, as a function of the
network's behaviour.  Every `catch` handler and every `!response.ok` branch
in the source *resolves* the promise (it never rejects), so the model's
return type is `Option QuestionResponse`: `some` is the resolved value, and
`none` means the promise has not settled yet (the poll interval is still
running after `fuel` ticks). -/

/-- `UploadResult` from `uploadResult.ts`. -/
structure UploadResult where
  file_id : String
  filename : String
  size : Nat
  type : String
  upload_time : String
  stored_filename : String
  status : String
deriving DecidableEq

/-- Outcome of one `fetchWithTimeout` call: HTTP-level failure
(`!response.ok`), a thrown error (network failure or timeout), or a parsed
body. -/
inductive FetchOutcome (α : Type) where
  | httpError : FetchOutcome α
  | netError : FetchOutcome α
  | ok (body : α) : FetchOutcome α
deriving DecidableEq

/-- The network's behaviour during one `uploadMarkdownContent` run: the
upload response, the generation-trigger response, the stream of poll
responses, and the questions-fetch response. -/
structure ClientEnv where
  uploadResp : FetchOutcome UploadResult
  generateResp : FetchOutcome Unit
  pollResps : Nat → PollResp
  questionsResp : FetchOutcome QuestionResponse

/-- `processAfterUpload` (part_006 lines 515-574): trigger generation, then
poll; on `Completed` fetch the questions, on failure or timeout resolve
with an empty list and the upload's `file_id`.  All failure branches
resolve; `none` only means the poller is still running after `fuel`
ticks. -/
def processAfterUpload (result : UploadResult) (env : ClientEnv)
    (fuel : Nat) : Option QuestionResponse :=
  match env.generateResp with
  | .httpError => some ⟨result.file_id, []⟩
  | .netError => some ⟨result.file_id, []⟩
  | .ok _ =>
      match pollRun env.pollResps fuel with
      | .polling _ => none
      | .stopped .failed => some ⟨result.file_id, []⟩
      | .stopped .completed =>
          match env.questionsResp with
          | .httpError => some ⟨result.file_id, []⟩
          | .netError => some ⟨result.file_id, []⟩
          | .ok qr => some qr

/-- `uploadMarkdownContent` (part_006 lines 464-512): upload the document;
on an HTTP failure or a thrown error resolve `{questions: [], file_id: ''}`,
otherwise hand over to `processAfterUpload`. -/
def uploadMarkdownContent (env : ClientEnv) (fuel : Nat) :
    Option QuestionResponse :=
  match env.uploadResp with
  | .httpError => some ⟨"", []⟩
  | .netError => some ⟨"", []⟩
  | .ok result => processAfterUpload result env fuel

/-- C9: `uploadMarkdownContent` never rejects — its model resolves (`some`)
or is still pending (`none`), and on every failure path it resolves with an
empty questions array: a failed or thrown upload yields
`{file_id: '', questions: []}`, and a generation-trigger failure, a poll
that stops in failure (timeout or `Failed` status), or a failed questions
fetch after completion all yield `{file_id, questions: []}` —
indistinguishable from a document that genuinely produced zero
questions. -/
theorem uploadMarkdownContent_resolves_empty (env : ClientEnv) (fuel : Nat) :
    ((env.uploadResp = .httpError ∨ env.uploadResp = .netError) →
      uploadMarkdownContent env fuel = some ⟨"", []⟩) ∧
    (∀ r, env.uploadResp = .ok r →
      (env.generateResp = .httpError ∨ env.generateResp = .netError) →
      uploadMarkdownContent env fuel = some ⟨r.file_id, []⟩) ∧
    (∀ r, env.uploadResp = .ok r → env.generateResp = .ok () →
      pollRun env.pollResps fuel = .stopped .failed →
      uploadMarkdownContent env fuel = some ⟨r.file_id, []⟩) ∧
    (∀ r, env.uploadResp = .ok r → env.generateResp = .ok () →
      pollRun env.pollResps fuel = .stopped .completed →
      (env.questionsResp = .httpError ∨ env.questionsResp = .netError) →
      uploadMarkdownContent env fuel = some ⟨r.file_id, []⟩) := by
  refine ⟨fun h => ?_, fun r hr h => ?_, fun r hr hg hp => ?_,
    fun r hr hg hp h => ?_⟩
  · rcases h with h | h <;> simp [uploadMarkdownContent, h]
  · rcases h with h | h <;>
      simp [uploadMarkdownContent, processAfterUpload, hr, h]
  · simp [uploadMarkdownContent, processAfterUpload, hr, hg, hp]
  · rcases h with h | h <;>
      simp [uploadMarkdownContent, processAfterUpload, hr, hg, hp, h]

/-- A concrete run for C9: a rejected upload request resolves with the
empty result, and a complete failure-free run with a `Failed` poll status
resolves with an empty list under the upload's `file_id`. -/
theorem uploadMarkdownContent_resolves_empty_witness :
    uploadMarkdownContent
      ⟨.httpError, .ok (), fun _ => PollResp.ok "Completed", .httpError⟩ 0
      = some ⟨"", []⟩ ∧
    uploadMarkdownContent
      ⟨.ok ⟨"f9", "content.md", 3, "text/markdown", "t", "s", "ok"⟩,
        .ok (), fun _ => PollResp.ok "Failed", .httpError⟩ 1
      = some ⟨"f9", []⟩ :=
  ⟨(uploadMarkdownContent_resolves_empty
      ⟨.httpError, .ok (), fun _ => PollResp.ok "Completed", .httpError⟩ 0).1
      (Or.inl rfl),
   (uploadMarkdownContent_resolves_empty
      ⟨.ok ⟨"f9", "content.md", 3, "text/markdown", "t", "s", "ok"⟩,
        .ok (), fun _ => PollResp.ok "Failed", .httpError⟩ 1).2.2.1
      ⟨"f9", "content.md", 3, "text/markdown", "t", "s", "ok"⟩ rfl rfl rfl⟩

/-! ## Chunker

The chunker runs in the backend pipeline, whose code is absent from the
snapshot; it is modelled from spec §4.1.  A text is the list of its
characters; a document is first split into lines, lines are grouped into
sections at Markdown heading boundaries, an oversized section is split at
blank-line paragraph boundaries, and an oversized paragraph is split at a
hard character boundary. -/

/-- Split a character list at every newline; the newline separators are
consumed.  Always returns at least one (possibly empty) line. -/
def splitLines : List Char → List (List Char)
  | [] => [[]]
  | c :: cs =>
      if c = '\n' then [] :: splitLines cs
      else
        match splitLines cs with
        | [] => [[c]]
        | l :: ls => (c :: l) :: ls

/-- Join lines back with a newline between consecutive lines. -/
def joinNl : List (List Char) → List Char
  | [] => []
  | [l] => l
  | l :: l2 :: ls => l ++ '\n' :: joinNl (l2 :: ls)

theorem splitLines_ne_nil (cs : List Char) : splitLines cs ≠ [] := by
  cases cs with
  | nil => simp [splitLines]
  | cons c cs =>
      simp only [splitLines]
      split
      · simp
      · cases h : splitLines cs <;> simp

theorem joinNl_splitLines (cs : List Char) : joinNl (splitLines cs) = cs := by
  induction cs with
  | nil => rfl
  | cons c cs ih =>
      simp only [splitLines]
      split
      · rename_i hc
        subst hc
        cases h : splitLines cs with
        | nil => exact absurd h (splitLines_ne_nil cs)
        | cons l ls =>
            rw [h] at ih
            simp [joinNl, ih]
      · cases h : splitLines cs with
        | nil => exact absurd h (splitLines_ne_nil cs)
        | cons l ls =>
            rw [h] at ih
            cases ls with
            | nil => simp [joinNl] at ih ⊢; rw [ih]
            | cons l2 ls2 => simp [joinNl] at ih ⊢; rw [ih]

/-- A Markdown heading line: the line begins with `#`. -/
def isHeading (line : List Char) : Bool :=
  match line with
  | [] => false
  | c :: _ => c = '#'

/-- Group lines into sections: each heading line starts a new section, and
a section extends to the line before the next heading. -/
def sections : List (List Char) → List (List (List Char))
  | [] => []
  | l :: ls =>
      match sections ls with
      | [] => [[l]]
      | s :: ss =>
          if isHeading (s.headD []) then [l] :: s :: ss
          else (l :: s) :: ss

theorem sections_flatten (ls : List (List Char)) :
    (sections ls).flatten = ls := by
  induction ls with
  | nil => rfl
  | cons l ls ih =>
      cases h : sections ls with
      | nil =>
          rw [h] at ih
          simp only [List.flatten_nil] at ih
          simp [sections, h, ← ih]
      | cons s ss =>
          rw [h] at ih
          simp only [List.flatten_cons] at ih
          simp only [sections, h]
          split <;> simp [ih]

/-- Split a list of lines at every blank (empty) line; the blank-line
separators are consumed.  Always returns at least one (possibly empty)
paragraph. -/
def splitBlank : List (List Char) → List (List (List Char))
  | [] => [[]]
  | l :: ls =>
      if l = [] then [] :: splitBlank ls
      else
        match splitBlank ls with
        | [] => [[l]]
        | p :: ps => (l :: p) :: ps

theorem splitBlank_ne_nil (ls : List (List Char)) : splitBlank ls ≠ [] := by
  cases ls with
  | nil => simp [splitBlank]
  | cons l ls =>
      simp only [splitBlank]
      split
      · simp
      · cases h : splitBlank ls <;> simp

/-- After mapping any line transformation that erases the empty line, the
paragraphs of a section carry the same content as its lines: the consumed
blank-line separators were empty. -/
theorem splitBlank_flatten (f : List Char → List Char) (hf : f [] = [])
    (ls : List (List Char)) :
    ((splitBlank ls).flatten.map f).flatten = (ls.map f).flatten := by
  induction ls with
  | nil => simp [splitBlank]
  | cons l ls ih =>
      simp only [splitBlank]
      split
      · rename_i hl
        subst hl
        simpa [hf] using ih
      · cases h : splitBlank ls with
        | nil => exact absurd h (splitBlank_ne_nil ls)
        | cons p ps =>
            rw [h] at ih
            simp only [List.flatten_cons, List.map_cons, List.map_append,
              List.flatten_append, List.map_flatten] at ih ⊢
            simp [ih]

/-- Split a text at hard character boundaries of width `n`. -/
def hardSplit (n : Nat) (l : List Char) : List (List Char) :=
  if l = [] then []
  else if n = 0 then [l]
  else l.take n :: hardSplit n (l.drop n)
termination_by l.length
decreasing_by
  rename_i hnil hn
  simp only [List.length_drop]
  exact Nat.sub_lt (List.length_pos.mpr hnil) (Nat.pos_of_ne_zero hn)

theorem hardSplit_flatten (n : Nat) (l : List Char) :
    (hardSplit n l).flatten = l := by
  generalize hk : l.length = k
  induction k using Nat.strong_induction_on generalizing l with
  | _ k ih =>
      rw [hardSplit]
      split
      · rename_i hl; simp [hl]
      · split
        · simp
        · rename_i hl hn
          simp only [List.flatten_cons]
          rw [ih (l.drop n).length ?_ (l.drop n) rfl]
          · exact List.take_append_drop n l
          · subst hk
            simp only [List.length_drop]
            exact Nat.sub_lt (List.length_pos.mpr hl) (Nat.pos_of_ne_zero hn)

/-- Modelled from the spec (§4.1): chunks of one paragraph — the paragraph
itself when within the cap, otherwise hard character-boundary pieces as a
last resort. -/
def chunkPara (maxSize : Nat) (para : List (List Char)) : List (List Char) :=
  if (joinNl para).length ≤ maxSize then [joinNl para]
  else hardSplit maxSize (joinNl para)

/-- Modelled from the spec (§4.1): chunks of one heading-delimited section —
the section itself when within the cap, otherwise its blank-line-delimited
paragraphs, each split further if needed. -/
def chunkSec (maxSize : Nat) (sec : List (List Char)) : List (List Char) :=
  if (joinNl sec).length ≤ maxSize then [joinNl sec]
  else (splitBlank sec).flatMap (chunkPara maxSize)

/-- Modelled from the spec: `chunk(document_text, max_chunk_size)` (§4.1).
Split primarily at Markdown heading boundaries; a section exceeding
`maxSize` is further split at blank-line paragraph boundaries, and a
paragraph still exceeding `maxSize` at a hard character boundary.  Empty
chunks are not emitted (an empty document yields an empty sequence). -/
def chunkDoc (doc : List Char) (maxSize : Nat) : List (List Char) :=
  ((sections (splitLines doc)).flatMap (chunkSec maxSize)).filter
    fun c => c ≠ []

/-- A non-whitespace character (the reconstruction invariant of spec §3
ignores whitespace, and the chunker's consumed separators — newlines and
blank lines — are whitespace). -/
def nonWS (c : Char) : Bool := !c.isWhitespace

theorem filter_joinNl (p : Char → Bool) (hp : p '\n' = false)
    (L : List (List Char)) :
    (joinNl L).filter p = (L.map (List.filter p)).flatten := by
  induction L with
  | nil => rfl
  | cons l L ih =>
      cases L with
      | nil => simp [joinNl]
      | cons l2 L2 =>
          simp only [joinNl] at ih ⊢
          simp [List.filter_append, List.filter_cons, hp, ih]

theorem flatten_flatten_map (f : List Char → List Char)
    (L : List (List (List Char))) :
    (L.map fun sec => ((sec.map f).flatten)).flatten
      = (L.flatten.map f).flatten := by
  induction L with
  | nil => rfl
  | cons sec L ih =>
      simp [List.map_append, List.flatten_append, ih]

theorem flatten_filter_ne_nil (L : List (List Char)) :
    (L.filter fun c => c ≠ []).flatten = L.flatten := by
  induction L with
  | nil => rfl
  | cons l L ih =>
      rw [List.filter_cons]
      split
      · rw [List.flatten_cons, List.flatten_cons, ih]
      · rename_i hcond
        have hl : l = [] := by simpa using hcond
        rw [ih, List.flatten_cons, hl]
        rfl

theorem chunkPara_content (maxSize : Nat) (para : List (List Char)) :
    ((chunkPara maxSize para).map (List.filter nonWS)).flatten
      = (para.map (List.filter nonWS)).flatten := by
  unfold chunkPara
  split
  · simp [filter_joinNl nonWS (by decide)]
  · rw [← List.filter_flatten, hardSplit_flatten,
      filter_joinNl nonWS (by decide)]

theorem chunkSec_paras (maxSize : Nat) (P : List (List (List Char))) :
    ((P.flatMap (chunkPara maxSize)).map (List.filter nonWS)).flatten
      = (P.map fun para => ((para.map (List.filter nonWS)).flatten)).flatten := by
  induction P with
  | nil => rfl
  | cons para P ih =>
      simp only [List.flatMap_cons, List.map_append, List.flatten_append,
        List.map_cons, List.flatten_cons, ih, chunkPara_content]

theorem chunkSec_content (maxSize : Nat) (sec : List (List Char)) :
    ((chunkSec maxSize sec).map (List.filter nonWS)).flatten
      = (sec.map (List.filter nonWS)).flatten := by
  unfold chunkSec
  split
  · simp [filter_joinNl nonWS (by decide)]
  · rw [chunkSec_paras, flatten_flatten_map,
      splitBlank_flatten (List.filter nonWS) rfl]

theorem chunkDoc_secs (maxSize : Nat) (S : List (List (List Char))) :
    ((S.flatMap (chunkSec maxSize)).map (List.filter nonWS)).flatten
      = (S.map fun sec => ((sec.map (List.filter nonWS)).flatten)).flatten := by
  induction S with
  | nil => rfl
  | cons sec S ih =>
      simp only [List.flatMap_cons, List.map_append, List.flatten_append,
        List.map_cons, List.flatten_cons, ih, chunkSec_content]

/-- C2: chunk reconstruction — for every document and every size cap,
concatenating the chunk texts in index order and erasing whitespace (which
subsumes every separator the chunker consumed) reproduces exactly the
non-whitespace characters of the document, in order, with no loss and no
overlap. -/
theorem chunk_reconstruction (doc : List Char) (maxSize : Nat) :
    (chunkDoc doc maxSize).flatten.filter nonWS = doc.filter nonWS := by
  unfold chunkDoc
  rw [flatten_filter_ne_nil, List.filter_flatten, chunkDoc_secs,
    flatten_flatten_map, sections_flatten,
    ← filter_joinNl nonWS (by decide) (splitLines doc), joinNl_splitLines]

/-! ## `editDistance` (`stringUtils.ts`, identical in both copies)

The TypeScript function lowercases both strings and then runs the classic
single-array Levenshtein dynamic program.  The embedding represents the
`costs` array as a list: `costs` holds row `i - 1` of the distance table
when row `i` starts, the in-place writes `costs[j-1] = lastValue` build row
`i`, and the final `costs[s2.length] = lastValue` append/write makes the
returned list exactly row `i`. -/

/-- Char-wise model of JS `toLowerCase`, applied by `editDistance` to both
inputs before the dynamic program (and likewise in the reference
distance). -/
def jsToLower (c : Char) : Char := c.toLower

/-- Reference Levenshtein distance: minimum number of single-character
insertions, deletions and substitutions, in its textbook recursive form. -/
def lev : List Char → List Char → Nat
  | [], ys => ys.length
  | xs, [] => xs.length
  | x :: xs, y :: ys =>
      if x = y then lev xs ys
      else 1 + min (lev xs (y :: ys)) (min (lev (x :: xs) ys) (lev xs ys))
termination_by xs ys => (xs.length, ys.length)
decreasing_by all_goals (simp_wf; omega)

theorem lev_nil_left (ys : List Char) : lev [] ys = ys.length := by
  cases ys <;> simp [lev]

theorem lev_nil_right (xs : List Char) : lev xs [] = xs.length := by
  cases xs <;> simp [lev]

theorem lev_cons_cons (x y : Char) (xs ys : List Char) :
    lev (x :: xs) (y :: ys) =
      if x = y then lev xs ys
      else 1 + min (lev xs (y :: ys)) (min (lev (x :: xs) ys) (lev xs ys)) := by
  simp [lev]

/-- The inner `j`-loop of `editDistance` for one row `i ≥ 1`: `ys` is the
remaining suffix of (lowercased) `s2`, `prev` the suffix of `costs` from
index `j - 1` on (still holding row `i - 1` there), `last` the `lastValue`
register (row `i`, column `j - 1`).  Returns the new row from column
`j - 1` on — the values the loop writes via `costs[j-1] = lastValue`,
closed by the final `costs[s2.length] = lastValue`. -/
def editRow (c1 : Char) : List Char → List Nat → Nat → List Nat
  | [], _, last => [last]
  | y :: ys, prev, last =>
      match prev with
      | p0 :: p1 :: ps =>
          last :: editRow c1 ys (p1 :: ps)
            (if c1 = y then p0 else min (min p0 last) p1 + 1)
      | _ => [last]

/-- The outer `i`-loop of `editDistance`: fold the rows over the characters
of (lowercased) `s1`, with `i` the 1-based row number (`lastValue` starts at
`i`). -/
def editRows (s2 : List Char) : List Char → Nat → List Nat → List Nat
  | [], _, costs => costs
  | c :: cs, i, costs => editRows s2 cs (i + 1) (editRow c s2 costs i)

/-- `editDistance` from `stringUtils.ts`: lowercase both strings, run the
dynamic program from the row `costs[j] = j`, and return
`costs[s2.length]`. -/
def editDistance (s1 s2 : String) : Nat :=
  (editRows (s2.toList.map jsToLower) (s1.toList.map jsToLower) 1
      (List.range ((s2.toList.map jsToLower).length + 1))).getD
    (s2.toList.map jsToLower).length 0

/-- The distance-table row for left word `A` against successive reversed
prefixes of the remaining right-word suffix `ys`, on top of the already
consumed reversed prefix `B`. -/
def levRow (A : List Char) (B : List Char) : List Char → List Nat
  | [] => [lev A B]
  | y :: ys => lev A B :: levRow A (y :: B) ys

theorem levRow_head (ys : List Char) (A B : List Char) :
    ∃ t, levRow A B ys = lev A B :: t := by
  cases ys <;> exact ⟨_, rfl⟩

theorem editRow_levRow (c : Char) (A : List Char) :
    ∀ (ys B : List Char),
      editRow c ys (levRow A B ys) (lev (c :: A) B) = levRow (c :: A) B ys := by
  intro ys
  induction ys with
  | nil => intro B; rfl
  | cons y ys ih =>
      intro B
      obtain ⟨t, ht⟩ := levRow_head ys A (y :: B)
      have hnew :
          (if c = y then lev A B
            else min (min (lev A B) (lev (c :: A) B)) (lev A (y :: B)) + 1)
            = lev (c :: A) (y :: B) := by
        rw [lev_cons_cons]
        by_cases hcy : c = y
        · simp [hcy]
        · simp only [if_neg hcy]
          omega
      calc editRow c (y :: ys) (levRow A B (y :: ys)) (lev (c :: A) B)
          = editRow c (y :: ys) (lev A B :: lev A (y :: B) :: t)
              (lev (c :: A) B) := by rw [levRow, ht]
        _ = lev (c :: A) B :: editRow c ys (lev A (y :: B) :: t)
              (if c = y then lev A B
                else min (min (lev A B) (lev (c :: A) B)) (lev A (y :: B)) + 1) := rfl
        _ = lev (c :: A) B :: editRow c ys (levRow A (y :: B) ys)
              (lev (c :: A) (y :: B)) := by rw [ht, hnew]
        _ = lev (c :: A) B :: levRow (c :: A) (y :: B) ys := by rw [ih]
        _ = levRow (c :: A) B (y :: ys) := rfl

theorem editRows_levRow (l2 : List Char) :
    ∀ (cs A : List Char),
      editRows l2 cs (A.length + 1) (levRow A [] l2)
        = levRow (List.reverseAux cs A) [] l2 := by
  intro cs
  induction cs with
  | nil => intro A; rfl
  | cons c cs ih =>
      intro A
      have hlast : lev (c :: A) [] = A.length + 1 := by
        rw [lev_nil_right]; rfl
      calc editRows l2 (c :: cs) (A.length + 1) (levRow A [] l2)
          = editRows l2 cs (A.length + 2)
              (editRow c l2 (levRow A [] l2) (A.length + 1)) := rfl
        _ = editRows l2 cs ((c :: A).length + 1) (levRow (c :: A) [] l2) := by
              rw [← hlast, editRow_levRow c A l2 []]
              rfl
        _ = levRow (List.reverseAux cs (c :: A)) [] l2 := ih (c :: A)
        _ = levRow (List.reverseAux (c :: cs) A) [] l2 := rfl

theorem levRow_getD (ys : List Char) :
    ∀ (A B : List Char),
      (levRow A B ys).getD ys.length 0 = lev A (List.reverseAux ys B) := by
  induction ys with
  | nil => intro A B; rfl
  | cons y ys ih => intro A B; exact ih A (y :: B)

theorem levRow_nil_range (ys : List Char) :
    ∀ (B : List Char), levRow [] B ys = List.range' B.length (ys.length + 1) := by
  induction ys with
  | nil =>
      intro B
      rw [levRow, lev_nil_left]
      simp [List.range'_one]
  | cons y ys ih =>
      intro B
      rw [levRow, lev_nil_left, ih (y :: B), List.range'_succ]
      rfl

theorem levRow_nil_nil_range (ys : List Char) :
    levRow [] [] ys = List.range (ys.length + 1) := by
  rw [levRow_nil_range ys []]
  exact (List.range_eq_range' _).symm

theorem editDistance_eq_lev (s1 s2 : String) :
    editDistance s1 s2
      = lev ((s1.toList.map jsToLower).reverse)
          ((s2.toList.map jsToLower).reverse) := by
  unfold editDistance
  have h0 : List.range ((s2.toList.map jsToLower).length + 1)
      = levRow [] [] (s2.toList.map jsToLower) :=
    (levRow_nil_nil_range _).symm
  rw [h0]
  have h1 : editRows (s2.toList.map jsToLower) (s1.toList.map jsToLower) 1
        (levRow [] [] (s2.toList.map jsToLower))
      = levRow (List.reverseAux (s1.toList.map jsToLower) []) []
          (s2.toList.map jsToLower) :=
    editRows_levRow (s2.toList.map jsToLower) (s1.toList.map jsToLower) []
  rw [h1, levRow_getD (s2.toList.map jsToLower) _ [],
    List.reverseAux_eq, List.reverseAux_eq, List.append_nil, List.append_nil]

/-- An edit script: `ED xs ys n` holds when `xs` can be transformed into
`ys` by `n` single-character operations — keeping a character is free,
substituting, deleting or inserting one costs 1. -/
inductive ED : List Char → List Char → Nat → Prop where
  | nil : ED [] [] 0
  | keep (c : Char) {xs ys : List Char} {n : Nat} :
      ED xs ys n → ED (c :: xs) (c :: ys) n
  | subst (x y : Char) {xs ys : List Char} {n : Nat} :
      ED xs ys n → ED (x :: xs) (y :: ys) (n + 1)
  | del (x : Char) {xs ys : List Char} {n : Nat} :
      ED xs ys n → ED (x :: xs) ys (n + 1)
  | ins (y : Char) {xs ys : List Char} {n : Nat} :
      ED xs ys n → ED xs (y :: ys) (n + 1)

theorem ED_nil_left (ys : List Char) : ED [] ys ys.length := by
  induction ys with
  | nil => exact ED.nil
  | cons y ys ih => exact ED.ins y ih

theorem ED_nil_right (xs : List Char) : ED xs [] xs.length := by
  induction xs with
  | nil => exact ED.nil
  | cons x xs ih => exact ED.del x ih

/-- Adjacency bounds: prepending one character to either word changes the
distance by at most one, in either direction. -/
theorem lev_adj :
    ∀ (k : Nat) (xs ys : List Char), xs.length + ys.length ≤ k →
      (∀ x, lev (x :: xs) ys ≤ 1 + lev xs ys) ∧
      (∀ y, lev xs (y :: ys) ≤ 1 + lev xs ys) ∧
      (∀ y, lev xs ys ≤ 1 + lev xs (y :: ys)) ∧
      (∀ x, lev xs ys ≤ 1 + lev (x :: xs) ys) := by
  intro k
  induction k with
  | zero =>
      intro xs ys h
      have hxs : xs = [] := by cases xs <;> simp_all
      have hys : ys = [] := by cases ys <;> simp_all
      subst hxs; subst hys
      refine ⟨fun x => ?_, fun y => ?_, fun y => ?_, fun x => ?_⟩ <;>
        simp only [lev_nil_left, lev_nil_right, List.length_cons,
          List.length_nil] <;> omega
  | succ k ih =>
      intro xs ys h
      refine ⟨fun x => ?_, fun y => ?_, fun y => ?_, fun x => ?_⟩
      · cases ys with
        | nil =>
            simp only [lev_nil_right, List.length_cons]
            omega
        | cons y ys =>
            rw [lev_cons_cons]
            by_cases hxy : x = y
            · rw [if_pos hxy]
              have hiii := (ih xs ys (by simp at h ⊢; omega)).2.2.1 y
              omega
            · rw [if_neg hxy]
              have hm := Nat.min_le_left (lev xs (y :: ys))
                (min (lev (x :: xs) ys) (lev xs ys))
              omega
      · cases xs with
        | nil =>
            simp only [lev_nil_left, List.length_cons]
            omega
        | cons x xs =>
            rw [lev_cons_cons]
            by_cases hxy : x = y
            · rw [if_pos hxy]
              have hiv := (ih xs ys (by simp at h ⊢; omega)).2.2.2 x
              omega
            · rw [if_neg hxy]
              have hm1 := Nat.min_le_right (lev xs (y :: ys))
                (min (lev (x :: xs) ys) (lev xs ys))
              have hm2 := Nat.min_le_left (lev (x :: xs) ys) (lev xs ys)
              omega
      · cases xs with
        | nil =>
            simp only [lev_nil_left, List.length_cons]
            omega
        | cons x xs =>
            rw [lev_cons_cons]
            by_cases hxy : x = y
            · rw [if_pos hxy]
              have hi := (ih xs ys (by simp at h ⊢; omega)).1 x
              omega
            · rw [if_neg hxy]
              have h1 := (ih xs ys (by simp at h ⊢; omega)).1 x
              have h2 := (ih xs ys (by simp at h ⊢; omega)).2.2.1 y
              omega
      · cases ys with
        | nil =>
            simp only [lev_nil_right, List.length_cons]
            omega
        | cons y ys =>
            rw [lev_cons_cons]
            by_cases hxy : x = y
            · rw [if_pos hxy]
              have hii := (ih xs ys (by simp at h ⊢; omega)).2.1 y
              omega
            · rw [if_neg hxy]
              have h1 := (ih xs ys (by simp at h ⊢; omega)).2.1 y
              have h2 := (ih xs ys (by simp at h ⊢; omega)).2.2.2 x
              omega

/-- Minimality: no edit script beats `lev`. -/
theorem lev_le_of_ED {xs ys : List Char} {n : Nat} (h : ED xs ys n) :
    lev xs ys ≤ n := by
  induction h with
  | nil => simp [lev_nil_left]
  | keep c h ih =>
      rw [lev_cons_cons]
      simp only [if_pos rfl]
      exact ih
  | subst x y h ih =>
      rw [lev_cons_cons]
      by_cases hxy : x = y
      · simp only [if_pos hxy]; omega
      · simp only [if_neg hxy]
        rename_i xs ys n
        have := Nat.min_le_right (lev xs (y :: ys))
          (min (lev (x :: xs) ys) (lev xs ys))
        have := Nat.min_le_right (lev (x :: xs) ys) (lev xs ys)
        omega
  | del x h ih =>
      rename_i xs ys n
      have := (lev_adj (xs.length + ys.length) xs ys (le_refl _)).1 x
      omega
  | ins y h ih =>
      rename_i xs ys n
      have := (lev_adj (xs.length + ys.length) xs ys (le_refl _)).2.1 y
      omega

/-- Achievability: some edit script has exactly cost `lev`. -/
theorem ED_lev (xs ys : List Char) : ED xs ys (lev xs ys) := by
  generalize hk : xs.length + ys.length = k
  induction k using Nat.strong_induction_on generalizing xs ys with
  | _ k ih =>
      cases xs with
      | nil => rw [lev_nil_left]; exact ED_nil_left ys
      | cons x xs =>
          cases ys with
          | nil => rw [lev_nil_right]; exact ED_nil_right _
          | cons y ys =>
              subst hk
              rw [lev_cons_cons]
              by_cases hxy : x = y
              · subst hxy
                simp only [if_pos rfl]
                exact ED.keep x (ih (xs.length + ys.length) (by simp; omega)
                  xs ys rfl)
              · simp only [if_neg hxy]
                have ha : ED (x :: xs) (y :: ys) (lev xs (y :: ys) + 1) :=
                  ED.del x (ih (xs.length + (y :: ys).length) (by simp)
                    xs (y :: ys) rfl)
                have hb : ED (x :: xs) (y :: ys) (lev (x :: xs) ys + 1) :=
                  ED.ins y (ih ((x :: xs).length + ys.length) (by simp)
                    (x :: xs) ys rfl)
                have hc : ED (x :: xs) (y :: ys) (lev xs ys + 1) :=
                  ED.subst x y (ih (xs.length + ys.length) (by simp; omega)
                    xs ys rfl)
                rcases min_choice (lev xs (y :: ys))
                    (min (lev (x :: xs) ys) (lev xs ys)) with h1 | h1
                · rw [h1, Nat.add_comm]; exact ha
                · rw [h1]
                  rcases min_choice (lev (x :: xs) ys) (lev xs ys) with h2 | h2
                  · rw [h2, Nat.add_comm]; exact hb
                  · rw [h2, Nat.add_comm]; exact hc

theorem ED_keep_snoc (c : Char) {xs ys : List Char} {n : Nat}
    (h : ED xs ys n) : ED (xs ++ [c]) (ys ++ [c]) n := by
  induction h with
  | nil => exact ED.keep c ED.nil
  | keep d h ih => exact ED.keep d ih
  | subst a b h ih => exact ED.subst a b ih
  | del a h ih => exact ED.del a ih
  | ins b h ih => exact ED.ins b ih

theorem ED_subst_snoc (x y : Char) {xs ys : List Char} {n : Nat}
    (h : ED xs ys n) : ED (xs ++ [x]) (ys ++ [y]) (n + 1) := by
  induction h with
  | nil => exact ED.subst x y ED.nil
  | keep d h ih => exact ED.keep d ih
  | subst a b h ih => exact ED.subst a b ih
  | del a h ih => exact ED.del a ih
  | ins b h ih => exact ED.ins b ih

theorem ED_del_snoc (x : Char) {xs ys : List Char} {n : Nat}
    (h : ED xs ys n) : ED (xs ++ [x]) ys (n + 1) := by
  induction h with
  | nil => exact ED.del x ED.nil
  | keep d h ih => exact ED.keep d ih
  | subst a b h ih => exact ED.subst a b ih
  | del a h ih => exact ED.del a ih
  | ins b h ih => exact ED.ins b ih

theorem ED_ins_snoc (y : Char) {xs ys : List Char} {n : Nat}
    (h : ED xs ys n) : ED xs (ys ++ [y]) (n + 1) := by
  induction h with
  | nil => exact ED.ins y ED.nil
  | keep d h ih => exact ED.keep d ih
  | subst a b h ih => exact ED.subst a b ih
  | del a h ih => exact ED.del a ih
  | ins b h ih => exact ED.ins b ih

/-- Edit scripts are invariant under reversing both words. -/
theorem ED_reverse {xs ys : List Char} {n : Nat} (h : ED xs ys n) :
    ED xs.reverse ys.reverse n := by
  induction h with
  | nil => exact ED.nil
  | keep c h ih =>
      rw [List.reverse_cons, List.reverse_cons]
      exact ED_keep_snoc c ih
  | subst a b h ih =>
      rw [List.reverse_cons, List.reverse_cons]
      exact ED_subst_snoc a b ih
  | del a h ih =>
      rw [List.reverse_cons]
      exact ED_del_snoc a ih
  | ins b h ih =>
      rw [List.reverse_cons]
      exact ED_ins_snoc b ih

theorem lev_reverse (xs ys : List Char) :
    lev xs.reverse ys.reverse = lev xs ys := by
  apply Nat.le_antisymm
  · exact lev_le_of_ED (ED_reverse (ED_lev xs ys))
  · have h := lev_le_of_ED (ED_reverse (ED_lev xs.reverse ys.reverse))
    simpa using h

/-- C8: for every pair of strings, `editDistance s1 s2` equals the
Levenshtein distance between the lowercased forms of `s1` and `s2` — it is
the least cost of any edit script (single-character insertions, deletions
and substitutions) between the two lowercased character sequences, and
coincides with the textbook recursive distance `lev`. -/
theorem editDistance_levenshtein (s1 s2 : String) :
    IsLeast {n | ED (s1.toList.map jsToLower) (s2.toList.map jsToLower) n}
      (editDistance s1 s2) ∧
    editDistance s1 s2
      = lev (s1.toList.map jsToLower) (s2.toList.map jsToLower) := by
  have hdp : editDistance s1 s2
      = lev (s1.toList.map jsToLower) (s2.toList.map jsToLower) := by
    rw [editDistance_eq_lev, lev_reverse]
  refine ⟨⟨?_, ?_⟩, hdp⟩
  · rw [hdp]
    exact ED_lev _ _
  · intro n hn
    rw [hdp]
    exact lev_le_of_ED hn

end InsightFlow
